import Mathlib

/-!
Verification of the index-storage layer (`db.rs`): on-disk schema, the
write-durability policy, the format/migration protocol on open, and the
fixed-width prefix-scanning iterator.

The embedded ordered key-value engine (consumed through the capability
contract of spec section 6) is modelled by association lists sorted
strictly by key: each column family is an ordered byte-key namespace whose
raw iterator visits keys in ascending byte order.  Bytes are modelled as
natural numbers (only equality and order matter), byte strings as lists
ordered lexicographically, matching the bytewise comparator of the engine.
-/

namespace Electrs

/-- A raw byte; only equality and ordering matter at this layer. -/
abbrev Byte := ℕ

/-- A raw engine key or value: a byte string, ordered lexicographically. -/
abbrev Bytes := List Byte

/-- The five named column families of the schema (`COLUMN_FAMILIES` in
`db.rs`).  The unnamed default column family of the legacy layout is kept
separately in `Disk.defaultCF`. -/
inductive CF
  | config
  | headers
  | txid
  | funding
  | spending
  deriving DecidableEq, Repr

/-- Constant `COLUMN_FAMILIES` (db.rs line 39). -/
def COLUMN_FAMILIES : List CF := [CF.config, CF.headers, CF.txid, CF.funding, CF.spending]

/-- Constant `CONFIG_KEY = "C"` (db.rs line 41). -/
def CONFIG_KEY : Bytes := [67]

/-- Constant `TIP_KEY = b"T"` (db.rs line 42). -/
def TIP_KEY : Bytes := [84]

/-- One ordered column family, modelled by the association list of its
key/value pairs kept strictly ascending by key, as the ordered engine does. -/
abbrev Table := List (Bytes × Bytes)

/-- Engine `put` into one column family: insert or overwrite, keeping the
keys strictly ascending. -/
def tablePut (k v : Bytes) : Table → Table
  | [] => [(k, v)]
  | (k1, v1) :: rest =>
    if k < k1 then (k, v) :: (k1, v1) :: rest
    else if k = k1 then (k, v) :: rest
    else (k1, v1) :: tablePut k v rest

/-- Engine point `get` from one column family. -/
def tableGet (k : Bytes) : Table → Option Bytes
  | [] => none
  | (k1, v1) :: rest => if k = k1 then some v1 else tableGet k rest

/-- The key sequence of a column family, in the order a raw iterator
visits it. -/
def tableKeys (t : Table) : List Bytes := t.map Prod.fst

/-- Well-formedness of an engine table: keys strictly ascending. -/
def TableSorted (t : Table) : Prop := (tableKeys t).Sorted (· < ·)

/-- The persisted on-disk state of one store: the five named column
families, plus the default column family (nonempty only under the legacy
pre-column-family layout). -/
structure Disk where
  config : Table
  headers : Table
  txid : Table
  funding : Table
  spending : Table
  defaultCF : Table
  deriving DecidableEq, Repr

/-- A freshly created (or just destroyed and recreated) store. -/
def emptyDisk : Disk := ⟨[], [], [], [], [], []⟩

/-- The table of a named column family. -/
def Disk.cf (d : Disk) : CF → Table
  | CF.config => d.config
  | CF.headers => d.headers
  | CF.txid => d.txid
  | CF.funding => d.funding
  | CF.spending => d.spending

/-- Model of `rocksdb::WriteOptions`: durability options attached to one engine
write (`set_sync` / `disable_wal`). -/
structure WriteOptions where
  sync : Bool
  disable_wal : Bool
  deriving DecidableEq, Repr

/-- One `put_cf` operation recorded into an engine write batch. -/
structure PutOp where
  cf : CF
  key : Bytes
  value : Bytes
  deriving DecidableEq, Repr

/-- Structure `WriteBatch` (db.rs lines 10-16): the tip hash plus the four row
collections of one unit of index updates. -/
structure WriteBatch where
  tip_row : Bytes
  header_rows : List Bytes
  funding_rows : List Bytes
  spending_rows : List Bytes
  txid_rows : List Bytes
  deriving DecidableEq, Repr

/-- Method `WriteBatch::sort` (db.rs lines 19-24): sorts each row collection in
ascending byte order (`sort_unstable` under the bytewise order). -/
def WriteBatch.sort (b : WriteBatch) : WriteBatch :=
  { b with
    header_rows := b.header_rows.insertionSort (· ≤ ·)
    funding_rows := b.funding_rows.insertionSort (· ≤ ·)
    spending_rows := b.spending_rows.insertionSort (· ≤ ·)
    txid_rows := b.txid_rows.insertionSort (· ≤ ·) }

/-- In-process store handle (`DBStore` in db.rs): the engine state plus the
bulk-import flag. -/
structure DBStore where
  disk : Disk
  bulk_import : Bool
  deriving DecidableEq, Repr

/-- Application of one batched `put_cf` to the on-disk state. -/
def Disk.applyPut (d : Disk) (op : PutOp) : Disk :=
  match op.cf with
  | CF.config => { d with config := tablePut op.key op.value d.config }
  | CF.headers => { d with headers := tablePut op.key op.value d.headers }
  | CF.txid => { d with txid := tablePut op.key op.value d.txid }
  | CF.funding => { d with funding := tablePut op.key op.value d.funding }
  | CF.spending => { d with spending := tablePut op.key op.value d.spending }

/-- Atomic application of one whole engine write batch: all of its puts
become visible together. -/
def Disk.applyBatch (d : Disk) (ops : List PutOp) : Disk :=
  ops.foldl Disk.applyPut d

/-- The engine batch built by `DBStore::write` (db.rs lines 291-304): all
funding, spending, txid and header rows (with empty values), then the tip
pointer row, accumulated into a single batch. -/
def buildBatch (b : WriteBatch) : List PutOp :=
  (b.funding_rows.map fun k => ⟨CF.funding, k, []⟩)
    ++ (b.spending_rows.map fun k => ⟨CF.spending, k, []⟩)
    ++ (b.txid_rows.map fun k => ⟨CF.txid, k, []⟩)
    ++ (b.header_rows.map fun k => ⟨CF.headers, k, []⟩)
    ++ [⟨CF.headers, TIP_KEY, b.tip_row⟩]

/-- Method `DBStore::write` (db.rs lines 290-311): one atomic engine commit of the
batch, with durability options chosen from the `bulk_import` flag
(`sync = !bulk_import`, `disable_wal = bulk_import`).  Returns the new
state together with the committed engine batch and its options. -/
def DBStore.write (s : DBStore) (b : WriteBatch) : DBStore × List PutOp × WriteOptions :=
  let ops := buildBatch b
  let opts : WriteOptions := { sync := !s.bulk_import, disable_wal := s.bulk_import }
  ({ s with disk := s.disk.applyBatch ops }, ops, opts)

/-- The state after committing a sequence of write batches in order. -/
def DBStore.writeAll (s : DBStore) (bs : List WriteBatch) : DBStore :=
  bs.foldl (fun st b => (st.write b).1) s

/-- Method `DBStore::get_tip` (db.rs lines 284-288): point read of the tip row. -/
def DBStore.get_tip (s : DBStore) : Option Bytes :=
  tableGet TIP_KEY s.disk.headers

/-- The persisted `Config` record (db.rs lines 81-96). -/
structure Config where
  compacted : Bool
  format : ℕ
  deriving DecidableEq, Repr

/-- Constant `CURRENT_FORMAT` (db.rs line 87). -/
def CURRENT_FORMAT : ℕ := 0

/-- Function `Config::default` (db.rs lines 89-96). -/
def Config.default : Config := { compacted := false, format := CURRENT_FORMAT }

/-- Model of the JSON serialization of `Config` (serde_json): an injective
byte encoding, read back by `configDeser`. -/
def configSer (c : Config) : Bytes := [cond c.compacted 1 0, c.format]

/-- Model of the JSON deserialization of `Config`. -/
def configDeser (v : Bytes) : Option Config :=
  match v with
  | [c, f] =>
    if c = 1 then some { compacted := true, format := f }
    else if c = 0 then some { compacted := false, format := f }
    else none
  | _ => none

/-- The write options used by `DBStore::set_config` (db.rs lines 368-370):
synchronous and WAL-protected, i.e. durable. -/
def set_config_opts : WriteOptions := { sync := true, disable_wal := false }

/-- Method `DBStore::set_config` (db.rs lines 367-375): persist the serialized
config record under `CONFIG_KEY` (durably, with `set_config_opts`). -/
def DBStore.set_config (s : DBStore) (c : Config) : DBStore :=
  { s with disk := { s.disk with config := tablePut CONFIG_KEY (configSer c) s.disk.config } }

/-- Method `DBStore::get_config` (db.rs lines 377-383). -/
def DBStore.get_config (s : DBStore) : Option Config :=
  (tableGet CONFIG_KEY s.disk.config).bind configDeser

/-- Method `DBStore::start_compactions` (db.rs lines 356-365): flip `bulk_import`
to false (auto-compactions are enabled on every column family). -/
def DBStore.start_compactions (s : DBStore) : DBStore :=
  { s with bulk_import := false }

/-- Observable engine maintenance calls, recording what `flush` performs. -/
inductive Action
  | flushCF (cf : CF)
  | compactRange (cf : CF)
  | putConfig (value : Bytes) (opts : WriteOptions)
  | enableAutoCompactions
  deriving DecidableEq, Repr

/-- Method `DBStore::flush` (db.rs lines 313-339): flush every column family;
then, only when the stored config is not yet compacted, compact every
column family end-to-end, persist `compacted = true` durably, and enable
auto-compactions (`start_compactions`).  Returns the new state and the
engine calls performed, in order. -/
def DBStore.flush (s : DBStore) : DBStore × List Action :=
  let config := s.get_config.getD Config.default
  let flushActs := COLUMN_FAMILIES.map Action.flushCF
  if config.compacted then
    (s, flushActs)
  else
    let config2 : Config := { config with compacted := true }
    let s2 := (s.set_config config2).start_compactions
    (s2, flushActs ++ COLUMN_FAMILIES.map Action.compactRange
      ++ [Action.putConfig (configSer config2) set_config_opts, Action.enableAutoCompactions])

/-- Method `DBStore::open_internal` (db.rs lines 130-157): open the engine at the
given on-disk state; the handle starts in bulk-import mode. -/
def open_internal (d : Disk) : DBStore := { disk := d, bulk_import := true }

/-- Method `DBStore::is_legacy_format` (db.rs lines 159-165): any key at all in
the default column family means the legacy single-namespace layout. -/
def DBStore.is_legacy_format (s : DBStore) : Bool := !s.disk.defaultCF.isEmpty

/-- The reindex cause computed by `DBStore::open` (db.rs lines 179-188):
the legacy check runs first, the version check only in its else branch. -/
def reindexCause (s : DBStore) (config : Config) : Option String :=
  if s.is_legacy_format then some "legacy format"
  else if config.format ≠ CURRENT_FORMAT then
    some ("unsupported format " ++ toString config.format ++ " != " ++ toString CURRENT_FORMAT)
  else none

/-- Method `DBStore::open` (db.rs lines 168-214); named `openStore` because `open`
is a Lean keyword.  The `Disk` argument stands for the contents at the
path; destroying the store replaces them by `emptyDisk`. -/
def openStore (d : Disk) (auto_reindex : Bool) : Except String DBStore :=
  let store := open_internal d
  let config := store.get_config.getD Config.default
  match reindexCause store config with
  | some cause =>
    if !auto_reindex then
      Except.error ("re-index required due to " ++ cause)
    else
      let store := open_internal emptyDisk
      let config := Config.default
      let store := if config.compacted then store.start_compactions else store
      Except.ok (store.set_config config)
  | none =>
    let store := if config.compacted then store.start_compactions else store
    Except.ok (store.set_config config)

/-- The test `key.starts_with(p)` on byte strings. -/
def startsWith (p k : Bytes) : Bool := decide (p <+: k)

/-- The prefix test of `DBIterator::next` (db.rs lines 417-420): match
against the scan prefix when one was given, else always succeed. -/
def matchesPfx (pfx : Option Bytes) (k : Bytes) : Bool :=
  match pfx with
  | some p => startsWith p k
  | none => true

/-- Method `DBIterator::next` (db.rs lines 405-434) run to exhaustion from the
current raw-iterator position: `remaining` is the ascending list of keys at
and after that position, `n` the fixed row width `N`, `pfx` the optional
scan prefix.  A key matching the prefix but of the wrong width is skipped
and the scan continues; the scan stops at the first prefix mismatch or at
the end of the table. -/
def iterCollect (n : ℕ) (pfx : Option Bytes) : List Bytes → List Bytes
  | [] => []
  | k :: rest =>
    if matchesPfx pfx k then
      if k.length = n then k :: iterCollect n pfx rest else iterCollect n pfx rest
    else []

/-- The seek done by `DBIterator::new` (db.rs lines 391-403): position at
the first key not below the prefix (`raw.seek`), or at the first key of the
table (`seek_to_first`). -/
def seekKeys (pfx : Option Bytes) (keys : List Bytes) : List Bytes :=
  match pfx with
  | some p => keys.dropWhile (fun k => decide (k < p))
  | none => keys

/-- Method `DBStore::iter_prefix_cf` (db.rs lines 266-276) applied to one table
state: the full key sequence yielded by a prefix scan of width-`n` rows. -/
def iterPfxCf (n : ℕ) (p : Bytes) (t : Table) : List Bytes :=
  iterCollect n (some p) (seekKeys (some p) (tableKeys t))

/-- The row collection of a write batch going to one of the three
hash-prefix tables. -/
def hashRows : CF → WriteBatch → List Bytes
  | CF.funding, b => b.funding_rows
  | CF.spending, b => b.spending_rows
  | CF.txid, b => b.txid_rows
  | _, _ => []

/-- Modelled from the spec: the committing caller (the indexing pipeline,
which is not part of the storage source) sorts a write batch before
committing it — spec section 4.3: "Before commit, each collection is
sorted in ascending byte order" — and then hands it to `DBStore::write`. -/
def commitBatch (s : DBStore) (b : WriteBatch) : DBStore × List PutOp × WriteOptions :=
  s.write b.sort

/-- The lexicographic order on byte strings is the `List.Lex` relation. -/
theorem bytes_lt_iff {a b : Bytes} : a < b ↔ List.Lex (· < ·) a b := Iff.rfl

/-- The empty byte string is the least byte string. -/
theorem nil_bytes_le (l : Bytes) : ([] : Bytes) ≤ l := by
  cases l with
  | nil => exact le_refl _
  | cons a t => exact le_of_lt (bytes_lt_iff.mpr List.Lex.nil)

/-- A byte string is bounded below by each of its own prefixes. -/
theorem le_of_pfx {p k : Bytes} (h : p <+: k) : p ≤ k := by
  obtain ⟨t, rfl⟩ := h
  induction p with
  | nil => exact nil_bytes_le t
  | cons a p ih =>
    rcases lt_or_eq_of_le ih with hlt | heq
    · exact le_of_lt (bytes_lt_iff.mpr (List.Lex.cons (bytes_lt_iff.mp hlt)))
    · rw [List.cons_append, ← heq]

/-- Keys sharing a given prefix form a contiguous ascending range: a key
`m` at or above the prefix `p` but not extending it is strictly above every
key `k` that does extend `p`. -/
theorem lt_of_pfx_break {p m k : Bytes} (hpm : p ≤ m) (hnm : ¬ p <+: m)
    (hk : p <+: k) : k < m := by
  induction p generalizing m k with
  | nil => exact absurd (List.nil_prefix) hnm
  | cons a p ih =>
    obtain ⟨t, rfl⟩ := hk
    cases m with
    | nil =>
      rcases hpm.lt_or_eq with h | h
      · exact absurd (bytes_lt_iff.mp h) (List.Lex.not_nil_right _ _)
      · exact absurd h (by simp)
    | cons b m =>
      rcases hpm.lt_or_eq with h | h
      · cases bytes_lt_iff.mp h with
        | cons hl =>
          have hnm' : ¬ p <+: m := fun hh => hnm (List.cons_prefix_cons.mpr ⟨rfl, hh⟩)
          have hlt : p ++ t < m :=
            ih (le_of_lt (bytes_lt_iff.mpr hl)) hnm' (List.prefix_append p t)
          simpa [List.cons_append] using bytes_lt_iff.mpr (List.Lex.cons (bytes_lt_iff.mp hlt))
        | rel hr =>
          simpa [List.cons_append] using bytes_lt_iff.mpr (List.Lex.rel hr)
      · exact absurd (h ▸ List.prefix_refl _) hnm

/-- Membership in the keys of a table after a `put`. -/
theorem mem_tableKeys_tablePut {k v : Bytes} {t : Table} (x : Bytes) :
    x ∈ tableKeys (tablePut k v t) ↔ x = k ∨ x ∈ tableKeys t := by
  induction t with
  | nil => simp [tablePut, tableKeys]
  | cons kv rest ih =>
    obtain ⟨k1, v1⟩ := kv
    by_cases h1 : k < k1
    · simp [tablePut, h1, tableKeys]
    · by_cases h2 : k = k1
      · subst h2
        simp [tablePut, h1, tableKeys]
      · simp [tablePut, h1, h2, tableKeys] at ih ⊢
        rw [ih]
        tauto

/-- Function `tablePut` keeps the keys of a table strictly ascending. -/
theorem TableSorted.tablePut {t : Table} (h : TableSorted t) (k v : Bytes) :
    TableSorted (tablePut k v t) := by
  induction t with
  | nil => simp [Electrs.tablePut, TableSorted, tableKeys]
  | cons kv rest ih =>
    obtain ⟨k1, v1⟩ := kv
    rw [TableSorted, tableKeys, List.map_cons, List.sorted_cons] at h
    by_cases h1 : k < k1
    · have ht : Electrs.tablePut k v ((k1, v1) :: rest) = (k, v) :: (k1, v1) :: rest := by
        simp [Electrs.tablePut, h1]
      rw [TableSorted, ht, tableKeys, List.map_cons, List.map_cons, List.sorted_cons,
        List.sorted_cons]
      refine ⟨?_, h.1, h.2⟩
      intro b hb
      rcases List.mem_cons.mp hb with rfl | hb
      · exact h1
      · exact lt_trans h1 (h.1 b hb)
    · by_cases h2 : k = k1
      · subst h2
        have ht : Electrs.tablePut k v ((k, v1) :: rest) = (k, v) :: rest := by
          simp [Electrs.tablePut, h1]
        rw [TableSorted, ht, tableKeys, List.map_cons, List.sorted_cons]
        exact h
      · have h3 : k1 < k := by
          rcases lt_trichotomy k k1 with hh | hh | hh
          · exact absurd hh h1
          · exact absurd hh h2
          · exact hh
        have ht : Electrs.tablePut k v ((k1, v1) :: rest)
            = (k1, v1) :: Electrs.tablePut k v rest := by
          simp [Electrs.tablePut, h1, h2]
        rw [TableSorted, ht, tableKeys, List.map_cons, List.sorted_cons]
        refine ⟨?_, ih h.2⟩
        intro b hb
        rcases (mem_tableKeys_tablePut b).mp hb with rfl | hb
        · exact h3
        · exact h.1 b hb

/-- Reading back the key just written. -/
theorem tableGet_tablePut_self (k v : Bytes) (t : Table) :
    tableGet k (tablePut k v t) = some v := by
  induction t with
  | nil => simp [tablePut, tableGet]
  | cons kv rest ih =>
    obtain ⟨k1, v1⟩ := kv
    by_cases h1 : k < k1
    · simp [tablePut, h1, tableGet]
    · by_cases h2 : k = k1
      · simp [tablePut, h1, h2, tableGet]
      · simp [tablePut, h1, h2, tableGet, ih]

/-- The modelled config serialization round-trips. -/
theorem configDeser_configSer (c : Config) : configDeser (configSer c) = some c := by
  obtain ⟨cpt, f⟩ := c
  cases cpt <;> simp [configSer, configDeser]

/-- Reading back the config just persisted by `set_config`. -/
theorem get_config_set_config (s : DBStore) (c : Config) :
    (s.set_config c).get_config = some c := by
  simp [DBStore.set_config, DBStore.get_config, tableGet_tablePut_self, configDeser_configSer]

/-- The scan yields exactly the keys of the declared width among the ones
scanned before the first prefix mismatch. -/
theorem iterCollect_eq_takeWhile_filter (n : ℕ) (pfx : Option Bytes) (ks : List Bytes) :
    iterCollect n pfx ks
      = (ks.takeWhile (matchesPfx pfx)).filter (fun k => k.length == n) := by
  induction ks with
  | nil => rfl
  | cons k rest ih =>
    by_cases hm : matchesPfx pfx k
    · by_cases hl : k.length = n
      · simp [iterCollect, hm, hl, List.takeWhile_cons, List.filter_cons, ih]
      · simp [iterCollect, hm, hl, List.takeWhile_cons, List.filter_cons, ih]
    · simp [iterCollect, hm, List.takeWhile_cons]

/-- When every remaining key is at or above the prefix, the scan collects
exactly the matching keys of the declared width, over the whole list. -/
theorem iterCollect_of_all_ge (n : ℕ) (p : Bytes) (ks : List Bytes)
    (hs : ks.Sorted (· < ·)) (hge : ∀ k ∈ ks, p ≤ k) :
    iterCollect n (some p) ks
      = ks.filter (fun k => startsWith p k && (k.length == n)) := by
  induction ks with
  | nil => rfl
  | cons k rest ih =>
    rw [List.sorted_cons] at hs
    have hrest := ih hs.2 fun x hx => hge x (List.mem_cons_of_mem _ hx)
    by_cases hm : p <+: k
    · have hms : startsWith p k = true := decide_eq_true hm
      by_cases hl : k.length = n
      · simp [iterCollect, matchesPfx, hms, hl, List.filter_cons, hrest]
      · simp [iterCollect, matchesPfx, hms, hl, List.filter_cons, hrest]
    · have hms : startsWith p k = false := decide_eq_false hm
      have hnone : ∀ x ∈ rest, (startsWith p x && (x.length == n)) = false := by
        intro x hx
        have hkx : k < x := hs.1 x hx
        have hnx : ¬ p <+: x := fun hpx =>
          absurd hkx (not_lt.mpr (le_of_lt (lt_of_pfx_break (hge k (List.mem_cons_self k rest)) hm hpx)))
        simp [startsWith, hnx]
      simp only [iterCollect, matchesPfx, hms, Bool.false_eq_true, if_false,
        List.filter_cons, Bool.false_and]
      exact (List.filter_eq_nil_iff.mpr (by
        intro a ha
        simp [hnone a ha])).symm

/-- A seek to the prefix followed by the scan loop returns exactly the
matching keys of the declared width, out of the whole sorted table. -/
theorem seek_iterCollect_eq_filter (n : ℕ) (p : Bytes) (ks : List Bytes)
    (hs : ks.Sorted (· < ·)) :
    iterCollect n (some p) (ks.dropWhile (fun k => decide (k < p)))
      = ks.filter (fun k => startsWith p k && (k.length == n)) := by
  induction ks with
  | nil => rfl
  | cons k rest ih =>
    rw [List.sorted_cons] at hs
    by_cases hlt : k < p
    · have h1 : ¬ p <+: k := fun h => absurd hlt (not_lt.mpr (le_of_pfx h))
      have hms : startsWith p k = false := decide_eq_false h1
      simp [List.dropWhile_cons, hlt, List.filter_cons, hms, ih hs.2]
    · have hk : p ≤ k := not_lt.mp hlt
      have hall : ∀ x ∈ k :: rest, p ≤ x := by
        intro x hx
        rcases List.mem_cons.mp hx with rfl | hx
        · exact hk
        · exact le_of_lt (lt_of_le_of_lt hk (hs.1 x hx))
      rw [List.dropWhile_cons, if_neg (by simpa using hlt)]
      exact iterCollect_of_all_ge n p (k :: rest) (List.sorted_cons.mpr hs) hall

/-- A prefix scan over a well-formed table filters its ascending key list. -/
theorem iterPfxCf_eq_filter (n : ℕ) (p : Bytes) (t : Table) (h : TableSorted t) :
    iterPfxCf n p t
      = (tableKeys t).filter (fun k => startsWith p k && (k.length == n)) :=
  seek_iterCollect_eq_filter n p (tableKeys t) h

/-- Well-formedness of the on-disk state: every named table has strictly
ascending keys, as the ordered engine maintains. -/
def Disk.WF (d : Disk) : Prop :=
  TableSorted d.config ∧ TableSorted d.headers ∧ TableSorted d.txid ∧
    TableSorted d.funding ∧ TableSorted d.spending

/-- Each named table of a well-formed state is sorted. -/
theorem Disk.WF.cfSorted {d : Disk} (h : d.WF) (c : CF) : TableSorted (d.cf c) := by
  cases c
  · exact h.1
  · exact h.2.1
  · exact h.2.2.1
  · exact h.2.2.2.1
  · exact h.2.2.2.2

/-- A freshly created store is well-formed. -/
theorem emptyDisk_WF : emptyDisk.WF := by
  refine ⟨?_, ?_, ?_, ?_, ?_⟩ <;> simp [emptyDisk, TableSorted, tableKeys]

/-- One batched put preserves well-formedness. -/
theorem Disk.WF.applyPut {d : Disk} (h : d.WF) (op : PutOp) : (d.applyPut op).WF := by
  obtain ⟨c, k, v⟩ := op
  obtain ⟨h1, h2, h3, h4, h5⟩ := h
  cases c <;>
    exact ⟨by first | exact h1.tablePut k v | exact h1,
      by first | exact h2.tablePut k v | exact h2,
      by first | exact h3.tablePut k v | exact h3,
      by first | exact h4.tablePut k v | exact h4,
      by first | exact h5.tablePut k v | exact h5⟩

/-- Applying a whole engine batch preserves well-formedness. -/
theorem Disk.WF.applyBatch {d : Disk} (h : d.WF) (ops : List PutOp) :
    (d.applyBatch ops).WF := by
  induction ops generalizing d with
  | nil => exact h
  | cons op ops ih => exact ih (h.applyPut op)

/-- A committed write batch preserves well-formedness. -/
theorem write_WF {s : DBStore} (h : s.disk.WF) (b : WriteBatch) :
    (s.write b).1.disk.WF :=
  h.applyBatch (buildBatch b)

/-- A committed sequence of write batches preserves well-formedness. -/
theorem writeAll_WF {s : DBStore} (h : s.disk.WF) (bs : List WriteBatch) :
    (s.writeAll bs).disk.WF := by
  induction bs generalizing s with
  | nil => exact h
  | cons b bs ih => exact ih (write_WF h b)

/-- Membership in the keys of a named table after one batched put. -/
theorem mem_applyPut_cf (d : Disk) (op : PutOp) (c : CF) (x : Bytes) :
    x ∈ tableKeys ((d.applyPut op).cf c)
      ↔ (op.cf = c ∧ op.key = x) ∨ x ∈ tableKeys (d.cf c) := by
  obtain ⟨oc, k, v⟩ := op
  cases oc <;> cases c <;>
    simp [Disk.applyPut, Disk.cf, mem_tableKeys_tablePut, eq_comm]

/-- Membership in the keys of a named table after one atomic batch. -/
theorem mem_applyBatch_cf (ops : List PutOp) (d : Disk) (c : CF) (x : Bytes) :
    x ∈ tableKeys ((d.applyBatch ops).cf c)
      ↔ (∃ op ∈ ops, op.cf = c ∧ op.key = x) ∨ x ∈ tableKeys (d.cf c) := by
  induction ops generalizing d with
  | nil => simp [Disk.applyBatch]
  | cons op ops ih =>
    have hstep : (d.applyBatch (op :: ops)) = ((d.applyPut op).applyBatch ops) := rfl
    rw [hstep, ih, mem_applyPut_cf]
    simp only [List.mem_cons]
    constructor
    · rintro (⟨o, ho, h⟩ | (h | h))
      · exact Or.inl ⟨o, Or.inr ho, h⟩
      · exact Or.inl ⟨op, Or.inl rfl, h⟩
      · exact Or.inr h
    · rintro (⟨o, ho | ho, h⟩ | h)
      · exact Or.inr (Or.inl (ho ▸ h))
      · exact Or.inl ⟨o, ho, h⟩
      · exact Or.inr (Or.inr h)

/-- The keys a write batch sends to one of the three hash-prefix tables are
exactly the row collection of that table. -/
theorem mem_buildBatch_hash (b : WriteBatch) (c : CF)
    (hc : c = CF.funding ∨ c = CF.spending ∨ c = CF.txid) (x : Bytes) :
    (∃ op ∈ buildBatch b, op.cf = c ∧ op.key = x) ↔ x ∈ hashRows c b := by
  rcases hc with rfl | rfl | rfl
  · constructor
    · rintro ⟨op, hop, hcf, hkey⟩
      simp only [buildBatch, List.mem_append, List.mem_map, List.mem_singleton] at hop
      rcases hop with ((((⟨a, ha, rfl⟩ | ⟨a, ha, rfl⟩) | ⟨a, ha, rfl⟩) | ⟨a, ha, rfl⟩) | rfl)
      · exact hkey ▸ ha
      · simp at hcf
      · simp at hcf
      · simp at hcf
      · simp at hcf
    · intro hx
      refine ⟨⟨CF.funding, x, []⟩, ?_, rfl, rfl⟩
      exact List.mem_append_left _ (List.mem_append_left _ (List.mem_append_left _
        (List.mem_append_left _ (List.mem_map_of_mem _ hx))))
  · constructor
    · rintro ⟨op, hop, hcf, hkey⟩
      simp only [buildBatch, List.mem_append, List.mem_map, List.mem_singleton] at hop
      rcases hop with ((((⟨a, ha, rfl⟩ | ⟨a, ha, rfl⟩) | ⟨a, ha, rfl⟩) | ⟨a, ha, rfl⟩) | rfl)
      · simp at hcf
      · exact hkey ▸ ha
      · simp at hcf
      · simp at hcf
      · simp at hcf
    · intro hx
      refine ⟨⟨CF.spending, x, []⟩, ?_, rfl, rfl⟩
      exact List.mem_append_left _ (List.mem_append_left _ (List.mem_append_left _
        (List.mem_append_right _ (List.mem_map_of_mem _ hx))))
  · constructor
    · rintro ⟨op, hop, hcf, hkey⟩
      simp only [buildBatch, List.mem_append, List.mem_map, List.mem_singleton] at hop
      rcases hop with ((((⟨a, ha, rfl⟩ | ⟨a, ha, rfl⟩) | ⟨a, ha, rfl⟩) | ⟨a, ha, rfl⟩) | rfl)
      · simp at hcf
      · simp at hcf
      · exact hkey ▸ ha
      · simp at hcf
      · simp at hcf
    · intro hx
      refine ⟨⟨CF.txid, x, []⟩, ?_, rfl, rfl⟩
      exact List.mem_append_left _ (List.mem_append_left _
        (List.mem_append_right _ (List.mem_map_of_mem _ hx)))

/-- Membership in the keys of a hash-prefix table after one committed batch. -/
theorem mem_write_cf (s : DBStore) (b : WriteBatch) (c : CF)
    (hc : c = CF.funding ∨ c = CF.spending ∨ c = CF.txid) (x : Bytes) :
    x ∈ tableKeys ((s.write b).1.disk.cf c)
      ↔ x ∈ hashRows c b ∨ x ∈ tableKeys (s.disk.cf c) := by
  have : (s.write b).1.disk = s.disk.applyBatch (buildBatch b) := rfl
  rw [this, mem_applyBatch_cf, mem_buildBatch_hash b c hc]

/-- Membership in the keys of a hash-prefix table after a sequence of committed
batches. -/
theorem mem_writeAll_cf (bs : List WriteBatch) (s : DBStore) (c : CF)
    (hc : c = CF.funding ∨ c = CF.spending ∨ c = CF.txid) (x : Bytes) :
    x ∈ tableKeys ((s.writeAll bs).disk.cf c)
      ↔ (∃ b ∈ bs, x ∈ hashRows c b) ∨ x ∈ tableKeys (s.disk.cf c) := by
  induction bs generalizing s with
  | nil => simp [DBStore.writeAll]
  | cons b bs ih =>
    have hstep : s.writeAll (b :: bs) = ((s.write b).1).writeAll bs := rfl
    rw [hstep, ih, mem_write_cf s b c hc]
    simp only [List.mem_cons]
    constructor
    · rintro (⟨b1, hb1, h⟩ | (h | h))
      · exact Or.inl ⟨b1, Or.inr hb1, h⟩
      · exact Or.inl ⟨b, Or.inl rfl, h⟩
      · exact Or.inr h
    · rintro (⟨b1, hb1 | hb1, h⟩ | h)
      · exact Or.inr (Or.inl (hb1 ▸ h))
      · exact Or.inl ⟨b1, hb1, h⟩
      · exact Or.inr (Or.inr h)

/-- The named tables of a freshly opened empty store are empty. -/
theorem emptyDisk_cf (c : CF) : emptyDisk.cf c = [] := by
  cases c <;> rfl

/-- Applying a concatenation of engine batches is sequential application. -/
theorem applyBatch_append (d : Disk) (ops1 ops2 : List PutOp) :
    d.applyBatch (ops1 ++ ops2) = (d.applyBatch ops1).applyBatch ops2 := by
  simp [Disk.applyBatch, List.foldl_append]

/-- The tip row read back right after one committed batch. -/
theorem get_tip_write (s : DBStore) (b : WriteBatch) :
    (s.write b).1.get_tip = some b.tip_row := by
  simp only [DBStore.write, DBStore.get_tip]
  rw [buildBatch, applyBatch_append]
  simp [Disk.applyBatch, Disk.applyPut, tableGet_tablePut_self]

/-- Committing one more batch after a sequence. -/
theorem writeAll_append (s : DBStore) (bs : List WriteBatch) (b : WriteBatch) :
    s.writeAll (bs ++ [b]) = ((s.writeAll bs).write b).1 := by
  simp [DBStore.writeAll, List.foldl_append]

/-- C2: for every batch commit via `write`, the durability options are
chosen by the current phase: in bulk-import mode the write disables the
write-ahead log and does not force a sync; online (`bulk_import = false`)
the write is synchronous and WAL-protected. -/
theorem write_durability_by_phase (s : DBStore) (b : WriteBatch) :
    (s.bulk_import = true →
      (s.write b).2.2.disable_wal = true ∧ (s.write b).2.2.sync = false) ∧
    (s.bulk_import = false →
      (s.write b).2.2.sync = true ∧ (s.write b).2.2.disable_wal = false) := by
  constructor <;> intro h <;> simp [DBStore.write, h]

/-- Witness for C2: both phases evaluated on a concrete store and batch. -/
theorem write_durability_by_phase_wit :
    (((⟨emptyDisk, true⟩ : DBStore).write ⟨[1], [], [], [], []⟩).2.2.disable_wal = true ∧
      ((⟨emptyDisk, true⟩ : DBStore).write ⟨[1], [], [], [], []⟩).2.2.sync = false) ∧
    (((⟨emptyDisk, false⟩ : DBStore).write ⟨[1], [], [], [], []⟩).2.2.sync = true ∧
      ((⟨emptyDisk, false⟩ : DBStore).write ⟨[1], [], [], [], []⟩).2.2.disable_wal = false) :=
  ⟨(write_durability_by_phase _ _).1 rfl, (write_durability_by_phase _ _).2 rfl⟩

/-- C3: every commit puts the tip-pointer row into the same single atomic
engine batch as all header, funding, spending and txid rows of the write
batch, and the committed state is that one batch applied atomically — so
no committed state has the header rows of the batch without its tip value or
vice versa. -/
theorem tip_written_in_same_batch (s : DBStore) (b : WriteBatch) :
    (s.write b).2.1 = buildBatch b ∧
    (⟨CF.headers, TIP_KEY, b.tip_row⟩ : PutOp) ∈ (s.write b).2.1 ∧
    (∀ k ∈ b.header_rows, (⟨CF.headers, k, []⟩ : PutOp) ∈ (s.write b).2.1) ∧
    (∀ k ∈ b.funding_rows, (⟨CF.funding, k, []⟩ : PutOp) ∈ (s.write b).2.1) ∧
    (∀ k ∈ b.spending_rows, (⟨CF.spending, k, []⟩ : PutOp) ∈ (s.write b).2.1) ∧
    (∀ k ∈ b.txid_rows, (⟨CF.txid, k, []⟩ : PutOp) ∈ (s.write b).2.1) ∧
    (s.write b).1.disk = s.disk.applyBatch ((s.write b).2.1) := by
  have hops : (s.write b).2.1 = buildBatch b := rfl
  refine ⟨rfl, ?_, ?_, ?_, ?_, ?_, rfl⟩ <;> rw [hops] <;> rw [buildBatch]
  · exact List.mem_append_right _ (List.mem_singleton.mpr rfl)
  · intro k hk
    exact List.mem_append_left _ (List.mem_append_right _ (List.mem_map_of_mem _ hk))
  · intro k hk
    exact List.mem_append_left _ (List.mem_append_left _ (List.mem_append_left _
      (List.mem_append_left _ (List.mem_map_of_mem _ hk))))
  · intro k hk
    exact List.mem_append_left _ (List.mem_append_left _ (List.mem_append_left _
      (List.mem_append_right _ (List.mem_map_of_mem _ hk))))
  · intro k hk
    exact List.mem_append_left _ (List.mem_append_left _
      (List.mem_append_right _ (List.mem_map_of_mem _ hk)))

/-- Witness for C3: tip row and a concrete header row land in the same
committed engine batch. -/
theorem tip_written_in_same_batch_wit :
    (⟨CF.headers, TIP_KEY, [9]⟩ : PutOp)
        ∈ ((⟨emptyDisk, true⟩ : DBStore).write ⟨[9], [[1, 2]], [], [], []⟩).2.1 ∧
    (⟨CF.headers, [1, 2], []⟩ : PutOp)
        ∈ ((⟨emptyDisk, true⟩ : DBStore).write ⟨[9], [[1, 2]], [], [], []⟩).2.1 :=
  ⟨(tip_written_in_same_batch _ _).2.1,
    (tip_written_in_same_batch _ _).2.2.1 [1, 2] (by decide)⟩

/-- C5: during any table scan, a key whose byte length differs from the
declared fixed width `n` is never yielded but is silently skipped without
terminating the scan: the output is exactly the width-`n` keys among those
scanned up to the first prefix mismatch. -/
theorem scan_skips_wrong_width_keys (n : ℕ) (pfx : Option Bytes) (ks : List Bytes) :
    iterCollect n pfx ks
        = (ks.takeWhile (matchesPfx pfx)).filter (fun k => k.length == n) ∧
    ∀ k ∈ iterCollect n pfx ks, k.length = n := by
  refine ⟨iterCollect_eq_takeWhile_filter n pfx ks, ?_⟩
  intro k hk
  rw [iterCollect_eq_takeWhile_filter] at hk
  simpa using List.of_mem_filter hk

/-- Witness for C5: a wrong-width key (the tip-pointer analogue) inside the
scanned range is skipped while later matching keys are still yielded. -/
theorem scan_skips_wrong_width_keys_wit :
    (iterCollect 3 (some [1, 2]) ([[1, 2], [1, 2, 3], [1, 2, 4]] : List Bytes)
        = (([[1, 2], [1, 2, 3], [1, 2, 4]] : List Bytes).takeWhile
            (matchesPfx (some [1, 2]))).filter (fun k => k.length == 3)) ∧
    ∀ k ∈ iterCollect 3 (some [1, 2]) ([[1, 2], [1, 2, 3], [1, 2, 4]] : List Bytes),
      k.length = 3 :=
  scan_skips_wrong_width_keys 3 (some [1, 2]) [[1, 2], [1, 2, 3], [1, 2, 4]]

/-- C6: after any sequence of committed batches, `get_tip` returns exactly
the 32-byte tip value of the most recently committed batch. -/
theorem get_tip_last_batch (s : DBStore) (bs : List WriteBatch) (b : WriteBatch) :
    (s.writeAll (bs ++ [b])).get_tip = some b.tip_row := by
  rw [writeAll_append]
  exact get_tip_write _ b

/-- Witness for C6 at a concrete store and batch sequence. -/
theorem get_tip_last_batch_wit :
    ((open_internal emptyDisk).writeAll
        ([⟨[1], [], [], [], []⟩] ++ [⟨[2], [[5, 5]], [], [], []⟩])).get_tip = some [2] :=
  get_tip_last_batch _ _ _

/-- C9: before a write batch is committed, each of its four row collections
is sorted into ascending byte order (`commitBatch` is the spec-modelled
committing caller: it sorts with `WriteBatch::sort` and then writes). -/
theorem batch_sorted_before_commit (s : DBStore) (b : WriteBatch) :
    b.sort.header_rows.Sorted (· ≤ ·) ∧ b.sort.header_rows.Perm b.header_rows ∧
    b.sort.funding_rows.Sorted (· ≤ ·) ∧ b.sort.funding_rows.Perm b.funding_rows ∧
    b.sort.spending_rows.Sorted (· ≤ ·) ∧ b.sort.spending_rows.Perm b.spending_rows ∧
    b.sort.txid_rows.Sorted (· ≤ ·) ∧ b.sort.txid_rows.Perm b.txid_rows ∧
    commitBatch s b = s.write b.sort ∧ b.sort.tip_row = b.tip_row :=
  ⟨List.sorted_insertionSort _ _, List.perm_insertionSort _ _,
    List.sorted_insertionSort _ _, List.perm_insertionSort _ _,
    List.sorted_insertionSort _ _, List.perm_insertionSort _ _,
    List.sorted_insertionSort _ _, List.perm_insertionSort _ _, rfl, rfl⟩

/-- Witness for C9 at a concrete unsorted batch. -/
theorem batch_sorted_before_commit_wit :
    (⟨[3], [[2], [1]], [], [], []⟩ : WriteBatch).sort.header_rows.Sorted (· ≤ ·) ∧
    (⟨[3], [[2], [1]], [], [], []⟩ : WriteBatch).sort.header_rows.Perm [[2], [1]] ∧
    (⟨[3], [[2], [1]], [], [], []⟩ : WriteBatch).sort.funding_rows.Sorted (· ≤ ·) ∧
    (⟨[3], [[2], [1]], [], [], []⟩ : WriteBatch).sort.funding_rows.Perm [] ∧
    (⟨[3], [[2], [1]], [], [], []⟩ : WriteBatch).sort.spending_rows.Sorted (· ≤ ·) ∧
    (⟨[3], [[2], [1]], [], [], []⟩ : WriteBatch).sort.spending_rows.Perm [] ∧
    (⟨[3], [[2], [1]], [], [], []⟩ : WriteBatch).sort.txid_rows.Sorted (· ≤ ·) ∧
    (⟨[3], [[2], [1]], [], [], []⟩ : WriteBatch).sort.txid_rows.Perm [] ∧
    commitBatch ⟨emptyDisk, true⟩ ⟨[3], [[2], [1]], [], [], []⟩
        = DBStore.write ⟨emptyDisk, true⟩ (⟨[3], [[2], [1]], [], [], []⟩ : WriteBatch).sort ∧
    (⟨[3], [[2], [1]], [], [], []⟩ : WriteBatch).sort.tip_row = [3] :=
  batch_sorted_before_commit ⟨emptyDisk, true⟩ ⟨[3], [[2], [1]], [], [], []⟩

/-- A store with data in the default column family is detected as legacy. -/
theorem is_legacy_of_defaultCF {d : Disk} (h : d.defaultCF ≠ []) :
    (open_internal d).is_legacy_format = true := by
  cases hd : d.defaultCF with
  | nil => exact absurd hd h
  | cons kv rest => simp [open_internal, DBStore.is_legacy_format, hd]

/-- A store with an empty default column family is not legacy. -/
theorem not_legacy_of_defaultCF {d : Disk} (h : d.defaultCF = []) :
    (open_internal d).is_legacy_format = false := by
  simp [open_internal, DBStore.is_legacy_format, h]

/-- Legacy data forces the reindex cause, whatever the stored config is. -/
theorem reindexCause_legacy {d : Disk} (h : d.defaultCF ≠ []) (c : Config) :
    reindexCause (open_internal d) c = some "legacy format" := by
  simp [reindexCause, is_legacy_of_defaultCF h]

/-- The config read on open of a store persisting `cfg`. -/
theorem open_internal_config {d : Disk} {cfg : Config}
    (hconf : tableGet CONFIG_KEY d.config = some (configSer cfg)) :
    (open_internal d).get_config = some cfg := by
  simp [open_internal, DBStore.get_config, hconf, configDeser_configSer]

/-- Opening a legacy store with auto-reindex disabled fails naming the
legacy cause. -/
theorem openStore_legacy_error {d : Disk} (h : d.defaultCF ≠ []) :
    openStore d false = Except.error "re-index required due to legacy format" := by
  simp only [openStore, reindexCause_legacy h, Bool.not_false, if_pos]
  rfl

/-- Opening with auto-reindex enabled, when a reindex cause is present,
destroys the store and reopens it with the default config persisted. -/
theorem openStore_reindex_ok {d : Disk} {cause : String}
    (h : reindexCause (open_internal d)
        (((open_internal d).get_config).getD Config.default) = some cause) :
    openStore d true = Except.ok ((open_internal emptyDisk).set_config Config.default) := by
  simp only [openStore, h]
  simp [Config.default]

/-- C4: opening a store whose persisted `format` differs from the current
one fails with a reindex-required error naming both version numbers when
auto-reindex is disabled; with auto-reindex enabled it succeeds, destroys
the store, and leaves the persisted format at the current version. -/
theorem open_format_mismatch_protocol (d : Disk) (cfg : Config)
    (hleg : d.defaultCF = [])
    (hconf : tableGet CONFIG_KEY d.config = some (configSer cfg))
    (hf : cfg.format ≠ CURRENT_FORMAT) :
    openStore d false = Except.error
      ("re-index required due to "
        ++ ("unsupported format " ++ toString cfg.format ++ " != " ++ toString CURRENT_FORMAT)) ∧
    openStore d true = Except.ok ((open_internal emptyDisk).set_config Config.default) ∧
    ((open_internal emptyDisk).set_config Config.default).get_config = some Config.default ∧
    Config.default.format = CURRENT_FORMAT ∧
    ((open_internal emptyDisk).set_config Config.default).disk.headers = [] ∧
    ((open_internal emptyDisk).set_config Config.default).disk.funding = [] ∧
    ((open_internal emptyDisk).set_config Config.default).disk.spending = [] ∧
    ((open_internal emptyDisk).set_config Config.default).disk.txid = [] ∧
    ((open_internal emptyDisk).set_config Config.default).disk.defaultCF = [] := by
  have hgc := open_internal_config hconf
  have hcause : reindexCause (open_internal d)
      (((open_internal d).get_config).getD Config.default)
        = some ("unsupported format " ++ toString cfg.format ++ " != " ++ toString CURRENT_FORMAT) := by
    rw [hgc]
    simp [reindexCause, not_legacy_of_defaultCF hleg, hf]
  refine ⟨?_, openStore_reindex_ok hcause, get_config_set_config _ _, rfl,
    rfl, rfl, rfl, rfl, rfl⟩
  simp only [openStore, hcause, Bool.not_false, if_pos]

/-- Counterexample to C4 as stated over every store with a mismatched
persisted format: a store that additionally holds a legacy-namespace key
has `format = 1 ≠ 0`, yet opening it with auto-reindex disabled reports
the legacy cause, whose message does not name the two version numbers. -/
theorem open_format_mismatch_cex :
    (tableGet CONFIG_KEY
        (⟨[([67], [0, 1])], [], [], [], [], [([70], [])]⟩ : Disk).config
          = some (configSer ⟨false, 1⟩) ∧
      (1 : ℕ) ≠ CURRENT_FORMAT) ∧
    openStore ⟨[([67], [0, 1])], [], [], [], [], [([70], [])]⟩ false
        = Except.error "re-index required due to legacy format" ∧
    "re-index required due to legacy format"
      ≠ "re-index required due to "
          ++ ("unsupported format " ++ toString (1 : ℕ) ++ " != " ++ toString CURRENT_FORMAT) :=
  ⟨⟨rfl, by decide⟩, openStore_legacy_error (by decide), by decide⟩

/-- Witness for C4: a store persisting `format = 1` (current is 0). -/
theorem open_format_mismatch_protocol_wit :
    openStore ⟨[([67], [0, 1])], [], [], [], [], []⟩ false
        = Except.error ("re-index required due to "
            ++ ("unsupported format " ++ toString (1 : ℕ) ++ " != " ++ toString CURRENT_FORMAT)) ∧
    openStore ⟨[([67], [0, 1])], [], [], [], [], []⟩ true
        = Except.ok ((open_internal emptyDisk).set_config Config.default) :=
  ⟨(open_format_mismatch_protocol ⟨[([67], [0, 1])], [], [], [], [], []⟩ ⟨false, 1⟩
      rfl rfl (by decide)).1,
    (open_format_mismatch_protocol ⟨[([67], [0, 1])], [], [], [], [], []⟩ ⟨false, 1⟩
      rfl rfl (by decide)).2.1⟩

/-- C8: a store containing any key in the legacy (default, pre-column-
family) namespace is detected as legacy on open and gets the same reindex
protocol as a version mismatch: a reindex-required error naming the legacy
cause when auto-reindex is disabled, and destruction plus recreation with
the default config when auto-reindex is enabled. -/
theorem open_legacy_protocol (d : Disk) (hleg : d.defaultCF ≠ []) :
    openStore d false = Except.error "re-index required due to legacy format" ∧
    openStore d true = Except.ok ((open_internal emptyDisk).set_config Config.default) ∧
    ((open_internal emptyDisk).set_config Config.default).get_config = some Config.default ∧
    Config.default = { compacted := false, format := CURRENT_FORMAT } ∧
    ((open_internal emptyDisk).set_config Config.default).disk.headers = [] ∧
    ((open_internal emptyDisk).set_config Config.default).disk.funding = [] ∧
    ((open_internal emptyDisk).set_config Config.default).disk.spending = [] ∧
    ((open_internal emptyDisk).set_config Config.default).disk.txid = [] ∧
    ((open_internal emptyDisk).set_config Config.default).disk.defaultCF = [] :=
  ⟨openStore_legacy_error hleg,
    openStore_reindex_ok (reindexCause_legacy hleg _),
    get_config_set_config _ _, rfl, rfl, rfl, rfl, rfl, rfl⟩

/-- Witness for C8: a store holding the single legacy key `"F"`. -/
theorem open_legacy_protocol_wit :
    openStore ⟨[], [], [], [], [], [([70], [])]⟩ false
        = Except.error "re-index required due to legacy format" ∧
    openStore ⟨[], [], [], [], [], [([70], [])]⟩ true
        = Except.ok ((open_internal emptyDisk).set_config Config.default) :=
  ⟨(open_legacy_protocol _ (by decide)).1, (open_legacy_protocol _ (by decide)).2.1⟩

/-- C10: when a store has both legacy-namespace data and a mismatched
persisted format, open reports the legacy cause, not the version mismatch;
the version check is only consulted when no legacy data is present. -/
theorem open_legacy_takes_precedence (d : Disk) (cfg : Config)
    (hleg : d.defaultCF ≠ [])
    (hconf : tableGet CONFIG_KEY d.config = some (configSer cfg))
    (hf : cfg.format ≠ CURRENT_FORMAT) :
    (((open_internal d).get_config).getD Config.default = cfg ∧ cfg.format ≠ CURRENT_FORMAT) ∧
    reindexCause (open_internal d) (((open_internal d).get_config).getD Config.default)
        = some "legacy format" ∧
    openStore d false = Except.error "re-index required due to legacy format" ∧
    (∀ s : DBStore, ∀ c : Config, s.is_legacy_format = false →
      reindexCause s c
        = if c.format ≠ CURRENT_FORMAT then
            some ("unsupported format " ++ toString c.format ++ " != " ++ toString CURRENT_FORMAT)
          else none) := by
  refine ⟨⟨by rw [open_internal_config hconf]; rfl, hf⟩,
    reindexCause_legacy hleg _, openStore_legacy_error hleg, ?_⟩
  intro s c h
  simp [reindexCause, h]

/-- Witness for C10: a store with both the legacy key `"F"` and a
persisted `format = 1`; the reported cause is the legacy layout. -/
theorem open_legacy_takes_precedence_wit :
    openStore ⟨[([67], [0, 1])], [], [], [], [], [([70], [])]⟩ false
        = Except.error "re-index required due to legacy format" :=
  (open_legacy_takes_precedence ⟨[([67], [0, 1])], [], [], [], [], [([70], [])]⟩ ⟨false, 1⟩
    (by decide) rfl (by decide)).2.2.1

/-- Flipping the bulk-import flag does not touch the persisted config. -/
theorem get_config_start_compactions (s : DBStore) :
    s.start_compactions.get_config = s.get_config := rfl

/-- A flush of an already-compacted store only flushes each table. -/
theorem flush_of_compacted {s : DBStore} {f : ℕ}
    (h : s.get_config = some { compacted := true, format := f }) :
    s.flush = (s, COLUMN_FAMILIES.map Action.flushCF) := by
  simp [DBStore.flush, h]

/-- After any flush the persisted config is compacted. -/
theorem flush_get_config_compacted (s : DBStore) :
    ((s.flush).1).get_config
      = some { compacted := true, format := (s.get_config.getD Config.default).format } := by
  cases hc : (s.get_config.getD Config.default).compacted with
  | false =>
    have hs1 : (s.flush).1
        = (s.set_config
            (⟨true, (s.get_config.getD Config.default).format⟩ : Config)).start_compactions := by
      simp [DBStore.flush, hc]
    rw [hs1, get_config_start_compactions, get_config_set_config]
  | true =>
    cases hg : s.get_config with
    | none =>
      rw [hg] at hc
      simp [Config.default] at hc
    | some c =>
      obtain ⟨cc, cf⟩ := c
      rw [hg] at hc
      simp at hc
      subst hc
      have hfl : s.flush = (s, COLUMN_FAMILIES.map Action.flushCF) :=
        flush_of_compacted (f := cf) (by rw [hg])
      rw [hfl]
      rw [hg]
      rfl

/-- C7: after the one-time full compaction completes, the persisted config
has `compacted = true`; every subsequent `flush` performs only the
per-table flush and runs no compaction; when the compaction does run, the
config is persisted with the durable (sync, WAL-protected) options. -/
theorem flush_compacts_once (s : DBStore) :
    (∃ f, ((s.flush).1).get_config = some { compacted := true, format := f }) ∧
    ((s.flush).1).flush = ((s.flush).1, COLUMN_FAMILIES.map Action.flushCF) ∧
    (∀ c : CF, Action.compactRange c ∉ ((((s.flush).1).flush)).2) ∧
    ((s.get_config.getD Config.default).compacted = false →
      Action.putConfig
          (configSer { compacted := true, format := (s.get_config.getD Config.default).format })
          set_config_opts ∈ (s.flush).2) ∧
    set_config_opts.sync = true ∧ set_config_opts.disable_wal = false := by
  have hg2 := flush_get_config_compacted s
  refine ⟨⟨(s.get_config.getD Config.default).format, hg2⟩, flush_of_compacted hg2, ?_, ?_,
    rfl, rfl⟩
  · intro c
    rw [flush_of_compacted hg2]
    simp [COLUMN_FAMILIES]
  · intro h
    have hacts : (s.flush).2
        = COLUMN_FAMILIES.map Action.flushCF ++ COLUMN_FAMILIES.map Action.compactRange
          ++ [Action.putConfig
                (configSer (⟨true, (s.get_config.getD Config.default).format⟩ : Config))
                set_config_opts,
              Action.enableAutoCompactions] := by
      simp [DBStore.flush, h]
    rw [hacts]
    simp

/-- Witness for C7: on a fresh store, the first flush durably persists the
compacted config; the second flush only flushes the tables. -/
theorem flush_compacts_once_wit :
    Action.putConfig (configSer { compacted := true, format := 0 }) set_config_opts
        ∈ ((open_internal emptyDisk).flush).2 ∧
    (((open_internal emptyDisk).flush).1).flush
        = (((open_internal emptyDisk).flush).1, COLUMN_FAMILIES.map Action.flushCF) :=
  ⟨(flush_compacts_once (open_internal emptyDisk)).2.2.2.1 rfl,
    (flush_compacts_once (open_internal emptyDisk)).2.1⟩

/-- The ascending key list of a well-formed table stays sorted under
`filter`; stated on `TableSorted` for reuse. -/
theorem TableSorted.filterSorted {t : Table} (h : TableSorted t) (q : Bytes → Bool) :
    ((tableKeys t).filter q).Sorted (· < ·) :=
  List.Sorted.filter q (h : (tableKeys t).Sorted (· < ·))

/-- A prefix scan of one hash-prefix table after a sequence of committed
batches is sorted and holds exactly the written rows extending the
prefix. -/
theorem iter_hash_table_spec (c : CF)
    (hc : c = CF.funding ∨ c = CF.spending ∨ c = CF.txid)
    (n : ℕ) (bs : List WriteBatch) (p : Bytes)
    (hw : ∀ b ∈ bs, ∀ k ∈ hashRows c b, k.length = n) (hp : p.length = 8) :
    (iterPfxCf n p (((open_internal emptyDisk).writeAll bs).disk.cf c)).Sorted (· < ·) ∧
    (∀ k, k ∈ iterPfxCf n p (((open_internal emptyDisk).writeAll bs).disk.cf c)
        ↔ ((∃ b ∈ bs, k ∈ hashRows c b) ∧ k.take 8 = p)) := by
  have hWF : ((open_internal emptyDisk).writeAll bs).disk.WF :=
    writeAll_WF emptyDisk_WF bs
  have hsorted : TableSorted (((open_internal emptyDisk).writeAll bs).disk.cf c) :=
    hWF.cfSorted c
  have hfilter := iterPfxCf_eq_filter n p _ hsorted
  constructor
  · rw [hfilter]
    exact hsorted.filterSorted _
  · intro k
    rw [hfilter, List.mem_filter]
    have hmem : k ∈ tableKeys (((open_internal emptyDisk).writeAll bs).disk.cf c)
        ↔ (∃ b ∈ bs, k ∈ hashRows c b) := by
      rw [mem_writeAll_cf bs _ c hc k]
      simp [open_internal, emptyDisk_cf, tableKeys]
    rw [hmem]
    constructor
    · rintro ⟨hk, hpred⟩
      simp only [Bool.and_eq_true, startsWith, decide_eq_true_eq, beq_iff_eq] at hpred
      refine ⟨hk, ?_⟩
      have htk := List.prefix_iff_eq_take.mp hpred.1
      rw [hp] at htk
      exact htk.symm
    · rintro ⟨hk, htake⟩
      obtain ⟨b, hb, hkb⟩ := hk
      have hlen : k.length = n := hw b hb k hkb
      refine ⟨⟨b, hb, hkb⟩, ?_⟩
      simp only [Bool.and_eq_true, startsWith, decide_eq_true_eq, beq_iff_eq]
      exact ⟨List.prefix_iff_eq_take.mpr (by rw [hp]; exact htake.symm), hlen⟩

/-- C1: for every set of fixed-width rows written to a funding, spending or
txid table and every 8-byte prefix, the prefix scan yields exactly the
written rows whose first 8 bytes equal the prefix, in ascending byte
order, and nothing else — and the result is the same for any insertion
order (any batch sequence writing the same row set). -/
theorem iter_hash_pfx_scan_exact (c : CF)
    (hc : c = CF.funding ∨ c = CF.spending ∨ c = CF.txid)
    (n : ℕ) (bs : List WriteBatch) (p : Bytes)
    (hw : ∀ b ∈ bs, ∀ k ∈ hashRows c b, k.length = n) (hp : p.length = 8) :
    (iterPfxCf n p (((open_internal emptyDisk).writeAll bs).disk.cf c)).Sorted (· < ·) ∧
    (∀ k, k ∈ iterPfxCf n p (((open_internal emptyDisk).writeAll bs).disk.cf c)
        ↔ ((∃ b ∈ bs, k ∈ hashRows c b) ∧ k.take 8 = p)) ∧
    (∀ bs' : List WriteBatch,
      (∀ k, (∃ b ∈ bs', k ∈ hashRows c b) ↔ (∃ b ∈ bs, k ∈ hashRows c b)) →
      iterPfxCf n p (((open_internal emptyDisk).writeAll bs').disk.cf c)
        = iterPfxCf n p (((open_internal emptyDisk).writeAll bs).disk.cf c)) := by
  obtain ⟨hs, hmem⟩ := iter_hash_table_spec c hc n bs p hw hp
  refine ⟨hs, hmem, ?_⟩
  intro bs' hbs
  have hw' : ∀ b ∈ bs', ∀ k ∈ hashRows c b, k.length = n := by
    intro b hb k hk
    obtain ⟨b2, hb2, hk2⟩ := (hbs k).mp ⟨b, hb, hk⟩
    exact hw b2 hb2 k hk2
  obtain ⟨hs', hmem'⟩ := iter_hash_table_spec c hc n bs' p hw' hp
  refine List.eq_of_perm_of_sorted ?_ hs' hs
  refine (List.perm_ext_iff_of_nodup hs'.nodup hs.nodup).mpr ?_
  intro k
  rw [hmem' k, hmem k, hbs k]

/-- Witness for C1: two rows of width 9 written in one batch to the txid
table; the scan under an 8-byte prefix is sorted and contains the one
matching row. -/
theorem iter_hash_pfx_scan_exact_wit :
    (iterPfxCf 9 [1, 2, 3, 4, 5, 6, 7, 8]
        (((open_internal emptyDisk).writeAll
          [(⟨[0], [], [], [], [[1, 2, 3, 4, 5, 6, 7, 8, 9],
            [9, 9, 9, 9, 9, 9, 9, 9, 9]]⟩ : WriteBatch)]).disk.cf CF.txid)).Sorted (· < ·) ∧
    ([1, 2, 3, 4, 5, 6, 7, 8, 9] ∈ iterPfxCf 9 [1, 2, 3, 4, 5, 6, 7, 8]
        (((open_internal emptyDisk).writeAll
          [(⟨[0], [], [], [], [[1, 2, 3, 4, 5, 6, 7, 8, 9],
            [9, 9, 9, 9, 9, 9, 9, 9, 9]]⟩ : WriteBatch)]).disk.cf CF.txid)
      ↔ ((∃ b ∈ [(⟨[0], [], [], [], [[1, 2, 3, 4, 5, 6, 7, 8, 9],
            [9, 9, 9, 9, 9, 9, 9, 9, 9]]⟩ : WriteBatch)],
            [1, 2, 3, 4, 5, 6, 7, 8, 9] ∈ hashRows CF.txid b) ∧
          ([1, 2, 3, 4, 5, 6, 7, 8, 9] : Bytes).take 8 = [1, 2, 3, 4, 5, 6, 7, 8])) :=
  ⟨(iter_hash_pfx_scan_exact CF.txid (Or.inr (Or.inr rfl)) 9
      [⟨[0], [], [], [], [[1, 2, 3, 4, 5, 6, 7, 8, 9], [9, 9, 9, 9, 9, 9, 9, 9, 9]]⟩]
      [1, 2, 3, 4, 5, 6, 7, 8] (by decide) rfl).1,
    (iter_hash_pfx_scan_exact CF.txid (Or.inr (Or.inr rfl)) 9
      [⟨[0], [], [], [], [[1, 2, 3, 4, 5, 6, 7, 8, 9], [9, 9, 9, 9, 9, 9, 9, 9, 9]]⟩]
      [1, 2, 3, 4, 5, 6, 7, 8] (by decide) rfl).2.1 [1, 2, 3, 4, 5, 6, 7, 8, 9]⟩

end Electrs
